import Mathlib

/-!
Verification of the Countdown numbers-game solver (`numbersSolver.py`).

Shallow embedding conventions:
* Python's evaluation stack is a Python list whose top is the LAST element
  (`stack[-1]`).  We represent stacks as Lean lists with the top at the HEAD,
  i.e. the Lean list is the reverse of the Python list.  `stack[-1]` is the
  head, `stack[-2]` the second element.
* Output sequences (`sequence`, `interimResults`, `outputStack` strings) keep
  Python's left-to-right order (appends go at the end).
* Python integers are `Int`; `divmod` is floor division, i.e. `Int.fdiv` /
  `Int.fmod`.
* A raised exception that propagates is `Except.error`; the payload records
  the state of the (in-place mutated) stack at the moment of the raise.  In
  `rpnEvaluate` every `raise ValueError` textually precedes the two mutating
  statements `stack.pop()` and `stack[-1] = result`, so the payload is the
  untouched input stack.
* Randomness (`random.shuffle`, `random.random() < 0.5`, `random.sample`) is
  modelled by explicit parameters: the shuffled consumption order, a stream of
  coin flips, and a stream of operator orderings.
-/

namespace Countdown

/-- The four Countdown operators (`'+'`, `'-'`, `'*'`, `'/'` in the source). -/
inductive Op where
  | add
  | sub
  | mul
  | div
deriving DecidableEq, Repr

/-- A sequence element: Python stores ints and operator strings in one list;
we tag them. -/
inductive Token where
  | num (n : Int)
  | op (o : Op)
deriving DecidableEq, Repr

/-- `operatorSet = ['+', '-', '*', '/']` from `generateRandomSequence`. -/
def operatorSet : List Op := [Op.add, Op.sub, Op.mul, Op.div]

/-- `rpnEvaluate(stack, element)` from the source.  On a number, push.  On an
operator, read `a = stack[-2]`, `b = stack[-1]`; the checks that `raise
ValueError` all happen before the mutations `stack.pop(); stack[-1] = result`,
so an error carries the stack exactly as it was at entry.  A too-short stack
would raise `IndexError` in Python (also before any mutation). -/
def rpnEvaluate (stack : List Int) (element : Token) : Except (List Int) (List Int) :=
  match element with
  | Token.num n => Except.ok (n :: stack)
  | Token.op o =>
    match stack with
    | b :: a :: rest =>
      match o with
      | Op.add => Except.ok ((a + b) :: rest)
      | Op.sub =>
        if a - b < 0 then Except.error (b :: a :: rest)
        else Except.ok ((a - b) :: rest)
      | Op.mul => Except.ok ((a * b) :: rest)
      | Op.div =>
        if b = 0 then Except.error (b :: a :: rest)
        else if Int.fmod a b ≠ 0 then Except.error (b :: a :: rest)
        else Except.ok ((Int.fdiv a b) :: rest)
    | _ => Except.error stack

/-- The operator-retry loop of `generateRandomSequence`:
`for operator in operators: try rpnEvaluate(stack, operator); break; except
ValueError: continue`.  Returns the operator left in the loop variable, the
stack after the loop, and whether some try succeeded (`break` was reached).
When every try fails the loop variable holds the last operator and the stack
is unchanged.  `random.sample(operatorSet, 4)` always yields a non-empty
list, so the `[]` case is unreachable (its result is arbitrary). -/
def tryOps : List Op → List Int → Op × List Int × Bool
  | [], st => (Op.add, st, false)
  | o :: rest, st =>
    match rpnEvaluate st (Token.op o) with
    | Except.ok st' => (o, st', true)
    | Except.error _ =>
      match rest with
      | [] => (o, st, false)
      | _ :: _ => tryOps rest st

/-- State of one `generateRandomSequence` run after the two initial pushes:
the emitted `sequence`, the evaluation `stack` (head = top), the not yet
consumed shuffled `numbers` (head = next to be popped), the `interimResults`
list, and an instrumentation flag `ok` recording that at every operator step
so far some operator was legal (i.e. the exhausted-operator-choices condition
never occurred). -/
structure GenState where
  sequence : List Token
  stack : List Int
  numbers : List Int
  interim : List Int
  ok : Bool
deriving DecidableEq, Repr

/-- One iteration of the `for i in range(9)` loop of
`generateRandomSequence`.  `coin` is `random.random() < 0.5` (true = pick a
number), `ops` is the draw `random.sample(operatorSet, 4)`.  Python pops the
next number off the end of the shuffled list; we consume from the head of the
reversed (consumption-ordered) list.  `numbers.pop()` on an empty list would
raise `IndexError`; that branch is unreachable (proved below) and modelled as
a no-op. -/
def genStep (coin : Bool) (ops : List Op) (s : GenState) : GenState :=
  let nextIsNumber : Bool :=
    if s.stack.length < 2 then true
    else if s.numbers.isEmpty then false
    else coin
  if nextIsNumber then
    match s.numbers with
    | [] => s
    | n :: rest =>
      { s with sequence := s.sequence ++ [Token.num n], stack := n :: s.stack,
               numbers := rest }
  else
    let r := tryOps ops s.stack
    { s with sequence := s.sequence ++ [Token.op r.1], stack := r.2.1,
             interim := s.interim ++ [r.2.1.headD 0], ok := s.ok && r.2.2 }

/-- The state of `generateRandomSequence` just before the loop:
`interimResults = numbersIn.copy()` (original order), then the two first
shuffled numbers are popped and pushed.  `order` is the consumption order,
i.e. the reverse of the shuffled list; `numbersIn` has six elements so
`order` always has the `n1 :: n2 :: rest` shape (the fallback is
unreachable). -/
def genInit (numbersIn order : List Int) : GenState :=
  match order with
  | n1 :: n2 :: rest =>
    { sequence := [Token.num n1, Token.num n2], stack := [n2, n1],
      numbers := rest, interim := numbersIn, ok := true }
  | _ =>
    { sequence := [], stack := [], numbers := [], interim := numbersIn, ok := true }

/-- The generator state after `n` of the 9 loop iterations. -/
def genRun (numbersIn order : List Int) (coin : Nat → Bool)
    (opSamples : Nat → List Op) (n : Nat) : GenState :=
  (List.range n).foldl (fun s i => genStep (coin i) (opSamples i) s)
    (genInit numbersIn order)

/-- `generateRandomSequence(numbersIn)`: returns `(sequence, interimResults)`
after all 9 loop iterations. -/
def generateRandomSequence (numbersIn order : List Int) (coin : Nat → Bool)
    (opSamples : Nat → List Op) : List Token × List Int :=
  let s := genRun numbersIn order coin opSamples 9
  (s.sequence, s.interim)

/-- Number of `Number` tokens in a sequence. -/
def countNums (l : List Token) : Nat :=
  l.countP fun t => match t with | Token.num _ => true | Token.op _ => false

/-- Number of `Operator` tokens in a sequence. -/
def countOps (l : List Token) : Nat :=
  l.countP fun t => match t with | Token.op _ => true | Token.num _ => false

/-- The numeric values of the `Number` tokens, in sequence order. -/
def numTokens (l : List Token) : List Int :=
  l.filterMap fun t => match t with | Token.num n => some n | Token.op _ => none

/-- Operand excess of a token list: number tokens minus operator tokens
(over `Int` so prefixes of arbitrary shape are meaningful). -/
def excess (l : List Token) : Int :=
  (countNums l : Int) - (countOps l : Int)

/-- Replaying a token list through `rpnEvaluate` starting from stack `st`,
collecting in `acc` the stack-top value after every operator application
(exactly what `generateRandomSequence` appends to `interimResults`).
`none` when some operator application is illegal. -/
def replaySt : List Token → List Int × List Int → Option (List Int × List Int)
  | [], p => some p
  | Token.num n :: rest, (st, acc) => replaySt rest (n :: st, acc)
  | Token.op o :: rest, (st, acc) =>
    match rpnEvaluate st (Token.op o) with
    | Except.ok st' => replaySt rest (st', acc ++ [st'.headD 0])
    | Except.error _ => none

/-- Loop invariant of `generateRandomSequence` after `i` iterations of the
`range(9)` loop (with six input numbers):
the sequence holds `2 + i` tokens; the stack size equals the operand excess
of the emitted sequence; a counting identity tying stack size, unconsumed
numbers and the iteration count; the stack is never empty; number tokens are
consumed from `order` in order; no operator step ever exhausted all four
operators; and replaying the emitted sequence reproduces the stack and the
interim-results list. -/
structure Inv (numbersIn order : List Int) (i : Nat) (s : GenState) : Prop where
  seqLen : s.sequence.length = 2 + i
  stackCount : s.stack.length + countOps s.sequence = countNums s.sequence
  budget : s.stack.length + 2 * s.numbers.length + i = 10
  stackPos : 1 ≤ s.stack.length
  consume : numTokens s.sequence ++ s.numbers = order
  okTrue : s.ok = true
  replay : replaySt s.sequence ([], numbersIn) = some (s.stack, s.interim)

/-- The skip condition of `formatSolution`:
`ignoreMultiplyByOne and len(calcStack) > 0 and calcStack[-1] == 1 and
element in ['*', '/']`. -/
def skipToken (ignore : Bool) (calcStk : List Int) (element : Token) : Bool :=
  ignore && !calcStk.isEmpty && (calcStk.headD 0 == 1) &&
    (match element with
     | Token.op Op.mul => true
     | Token.op Op.div => true
     | _ => false)

/-- `element in ['+', '*']` — the commutative operators of the formatter's
operand-swap rule. -/
def commutes : Op → Bool
  | Op.add => true
  | Op.mul => true
  | Op.sub => false
  | Op.div => false

def opStr : Op → String
  | Op.add => "+"
  | Op.sub => "-"
  | Op.mul => "*"
  | Op.div => "/"

/-- `'({} {} {})'.format(...)` building of `formatSolution`: normally
`(L op R)`, but for a commutative operator with `len(L) < len(R)` the
operands are swapped to `(R op L)`. -/
def combineStrs (o : Op) (l r : String) : String :=
  if commutes o && decide (l.length < r.length) then
    "(" ++ r ++ " " ++ opStr o ++ " " ++ l ++ ")"
  else
    "(" ++ l ++ " " ++ opStr o ++ " " ++ r ++ ")"

/-- The token loop of `formatSolution`, maintaining the numeric stack
(`calcStack`) and the string stack (`outputStack`), both top-at-head.
Returns the two stacks and whether the loop `break`-ed early (new stack top
equal to the target right after an operator application).  `none` models an
exception escaping the loop: `ValueError` from `rpnEvaluate` (the formatter
has no try/except) or `IndexError` from popping/indexing a too-short
`outputStack`. -/
def formatLoop (target : Int) (ignore : Bool) :
    List Token → List Int → List String → Option (List Int × List String × Bool)
  | [], calcStk, outStk => some (calcStk, outStk, false)
  | element :: rest, calcStk, outStk =>
    if skipToken ignore calcStk element then
      match calcStk, outStk with
      | _ :: calcT, _ :: out' => formatLoop target ignore rest calcT out'
      | _, _ => none
    else
      match rpnEvaluate calcStk element with
      | Except.error _ => none
      | Except.ok calcT =>
        match element with
        | Token.num n => formatLoop target ignore rest calcT (toString n :: outStk)
        | Token.op o =>
          match outStk with
          | r :: l :: outRest =>
            if calcT.headD 0 = target then some (calcT, combineStrs o l r :: outRest, true)
            else formatLoop target ignore rest calcT (combineStrs o l r :: outRest)
          | _ => none

/-- `tempString`: every non-digit character of the expression replaced by a
space (Python's `char.isnumeric()` on these ASCII expressions is
`Char.isDigit`). -/
def maskDigits : List Char → List Char
  | [] => []
  | c :: rest => (if c.isDigit then c else ' ') :: maskDigits rest

/-- Python's `str.split(' ')`: split at every single space, keeping empty
pieces (so `''.split(' ') == ['']`). -/
def splitOnSpace : List Char → List (List Char)
  | [] => [[]]
  | c :: rest =>
    if c = ' ' then [] :: splitOnSpace rest
    else
      match splitOnSpace rest with
      | [] => [[c]]
      | t :: ts => (c :: t) :: ts

/-- The numbers-used count of `formatSolution`: tokenize the digit runs of
the expression string and count the non-empty tokens. -/
def numbersUsedCount (s : String) : Nat :=
  (splitOnSpace (maskDigits s.toList)).countP fun t => !t.isEmpty

/-- `formatSolution(sequence, target, ignoreMultiplyByOne)`: run the loop,
then render `'{} = {}'.format(outputStack[-1], target)` and count the
numeric literals of `outputStack[-1]`. -/
def formatSolution (sequence : List Token) (target : Int)
    (ignoreMultiplyByOne : Bool) : Option (String × Nat) :=
  match formatLoop target ignoreMultiplyByOne sequence [] [] with
  | none => none
  | some (_, outStk, _) =>
    match outStk with
    | [] => none
    | top :: _ => some (top ++ " = " ++ toString target, numbersUsedCount top)

/-- The final numeric value of a `formatSolution` run: the top of the
numeric stack when the loop finishes (the value of the expression the
formatter renders). -/
def finalValue (sequence : List Token) (target : Int) (ignore : Bool) :
    Option Int :=
  (formatLoop target ignore sequence [] []).map fun r => r.1.headD 0

/-- One iteration of the search driver's Best-So-Far update (the body of
`for result in interimResults` in `__main__`): adopt the result when no
candidate exists yet, or when it is strictly closer to the target. -/
def updateClosest (target : Int) (closest : Option (Int × List Token))
    (result : Int) (sequence : List Token) : Option (Int × List Token) :=
  match closest with
  | none => some (result, sequence)
  | some (v, s) =>
    if |target - result| < |target - v| then some (result, sequence)
    else some (v, s)

/-- Folding the Best-So-Far update over a stream of
(interim result, owning sequence) pairs, in processing order. -/
def runClosest (target : Int) (closest : Option (Int × List Token))
    (l : List (Int × List Token)) : Option (Int × List Token) :=
  l.foldl (fun c r => updateClosest target c r.1 r.2) closest

/-- Reference recursion: the candidate kept after seeing `p` and then the
stream `l` — `p` is replaced only by a strictly closer later element. -/
def bestFrom (target : Int) (p : Int × List Token) :
    List (Int × List Token) → Int × List Token
  | [] => p
  | q :: rest =>
    if |target - q.1| < |target - p.1| then bestFrom target q rest
    else bestFrom target p rest

@[simp] theorem countNums_append (l₁ l₂ : List Token) :
    countNums (l₁ ++ l₂) = countNums l₁ + countNums l₂ :=
  List.countP_append _ _ _

@[simp] theorem countOps_append (l₁ l₂ : List Token) :
    countOps (l₁ ++ l₂) = countOps l₁ + countOps l₂ :=
  List.countP_append _ _ _

@[simp] theorem numTokens_append (l₁ l₂ : List Token) :
    numTokens (l₁ ++ l₂) = numTokens l₁ ++ numTokens l₂ :=
  List.filterMap_append _ _ _

@[simp] theorem countNums_num (n : Int) : countNums [Token.num n] = 1 := rfl

@[simp] theorem countNums_op (o : Op) : countNums [Token.op o] = 0 := rfl

@[simp] theorem countOps_num (n : Int) : countOps [Token.num n] = 0 := rfl

@[simp] theorem countOps_op (o : Op) : countOps [Token.op o] = 1 := rfl

@[simp] theorem numTokens_num (n : Int) : numTokens [Token.num n] = [n] := rfl

@[simp] theorem numTokens_op (o : Op) : numTokens [Token.op o] = [] := rfl

/-- A successful operator application consumes the top two stack values and
pushes a single result on the remainder. -/
theorem rpnEvaluate_op_ok {st st' : List Int} {o : Op}
    (h : rpnEvaluate st (Token.op o) = Except.ok st') :
    ∃ b a t v, st = b :: a :: t ∧ st' = v :: t := by
  rcases st with _ | ⟨b, _ | ⟨a, t⟩⟩
  · exact absurd h (by simp [rpnEvaluate])
  · exact absurd h (by simp [rpnEvaluate])
  · cases o with
    | add =>
      have h' : (Except.ok ((a + b) :: t) : Except (List Int) (List Int))
          = Except.ok st' := h
      injection h' with h''
      exact ⟨b, a, t, a + b, rfl, h''.symm⟩
    | sub =>
      rw [show rpnEvaluate (b :: a :: t) (Token.op Op.sub)
          = if a - b < 0 then Except.error (b :: a :: t)
            else Except.ok ((a - b) :: t) from rfl] at h
      split_ifs at h
      injection h with h''
      exact ⟨b, a, t, a - b, rfl, h''.symm⟩
    | mul =>
      have h' : (Except.ok ((a * b) :: t) : Except (List Int) (List Int))
          = Except.ok st' := h
      injection h' with h''
      exact ⟨b, a, t, a * b, rfl, h''.symm⟩
    | div =>
      rw [show rpnEvaluate (b :: a :: t) (Token.op Op.div)
          = if b = 0 then Except.error (b :: a :: t)
            else if Int.fmod a b ≠ 0 then Except.error (b :: a :: t)
            else Except.ok ((Int.fdiv a b) :: t) from rfl] at h
      split_ifs at h
      injection h with h''
      exact ⟨b, a, t, Int.fdiv a b, rfl, h''.symm⟩

/-- If the retry loop reports success, the operator it settled on does apply
to the input stack and produces the returned stack. -/
theorem tryOps_ok (ops : List Op) (st : List Int)
    (h : (tryOps ops st).2.2 = true) :
    rpnEvaluate st (Token.op (tryOps ops st).1) = Except.ok (tryOps ops st).2.1 := by
  induction ops with
  | nil => simp [tryOps] at h
  | cons o rest ih =>
    cases hev : rpnEvaluate st (Token.op o) with
    | ok st' => simp [tryOps, hev]
    | error e =>
      cases rest with
      | nil => simp [tryOps, hev] at h
      | cons o2 r2 =>
        have heq : tryOps (o :: o2 :: r2) st = tryOps (o2 :: r2) st := by
          simp [tryOps, hev]
        rw [heq] at h ⊢
        exact ih h

/-- `add` never fails, so if the drawn operator list contains `add` and the
stack has at least two values, the retry loop succeeds. -/
theorem tryOps_add_ok (ops : List Op) (st : List Int) (hmem : Op.add ∈ ops)
    (hlen : 2 ≤ st.length) : (tryOps ops st).2.2 = true := by
  induction ops with
  | nil => cases hmem
  | cons o rest ih =>
    cases hev : rpnEvaluate st (Token.op o) with
    | ok st' => simp [tryOps, hev]
    | error e =>
      have hmem' : Op.add ∈ rest := by
        rcases List.mem_cons.mp hmem with h1 | h1
        · exfalso
          subst h1
          rcases st with _ | ⟨b, _ | ⟨a, t⟩⟩
          · simp at hlen
          · simp at hlen
          · exact absurd hev (by simp [rpnEvaluate])
        · exact h1
      cases rest with
      | nil => cases hmem'
      | cons o2 r2 =>
        have heq : tryOps (o :: o2 :: r2) st = tryOps (o2 :: r2) st := by
          simp [tryOps, hev]
        rw [heq]
        exact ih hmem'

/-- Replaying a concatenation is replaying the parts in order. -/
theorem replaySt_append (l₁ l₂ : List Token) (p : List Int × List Int) :
    replaySt (l₁ ++ l₂) p = (replaySt l₁ p).bind (replaySt l₂) := by
  induction l₁ generalizing p with
  | nil => simp [replaySt]
  | cons t rest ih =>
    obtain ⟨st, acc⟩ := p
    cases t with
    | num n =>
      simpa [replaySt] using ih (n :: st, acc)
    | op o =>
      simp only [List.cons_append, replaySt]
      cases rpnEvaluate st (Token.op o) with
      | ok st' => exact ih (st', acc ++ [st'.headD 0])
      | error e => simp

theorem genRun_succ (numbersIn order : List Int) (coin : Nat → Bool)
    (opSamples : Nat → List Op) (n : Nat) :
    genRun numbersIn order coin opSamples (n + 1)
      = genStep (coin n) (opSamples n) (genRun numbersIn order coin opSamples n) := by
  unfold genRun
  rw [List.range_succ, List.foldl_append]
  rfl

theorem inv_init (numbersIn order : List Int) (hlen : order.length = 6) :
    Inv numbersIn order 0 (genInit numbersIn order) := by
  rcases order with _ | ⟨n1, _ | ⟨n2, rest⟩⟩
  · simp at hlen
  · simp at hlen
  · refine ⟨rfl, rfl, ?_, by simp [genInit], rfl, rfl, rfl⟩
    simp [genInit]
    simp at hlen
    omega

theorem inv_step {numbersIn order : List Int} {i : Nat} {s : GenState}
    (coin : Bool) (ops : List Op) (hops : Op.add ∈ ops) (hi : i < 9)
    (h : Inv numbersIn order i s) :
    Inv numbersIn order (i + 1) (genStep coin ops s) := by
  obtain ⟨seqLen, stackCount, budget, stackPos, consume, okTrue, replay⟩ := h
  obtain ⟨seq, st, nums, inter, okv⟩ := s
  simp only at seqLen stackCount budget stackPos consume okTrue replay
  by_cases h2 : st.length < 2
  · -- forced Number branch: the stack has one element
    have hnums : nums ≠ [] := by
      intro hemp
      rw [hemp] at budget
      simp at budget
      omega
    rcases nums with _ | ⟨n, rest⟩
    · exact absurd rfl hnums
    have hstep : genStep coin ops ⟨seq, st, n :: rest, inter, okv⟩
        = ⟨seq ++ [Token.num n], n :: st, rest, inter, okv⟩ := by
      simp [genStep, h2]
    rw [hstep]
    refine ⟨?_, ?_, ?_, ?_, ?_, okTrue, ?_⟩
    · simp [seqLen]
      omega
    · simp
      omega
    · simp at budget ⊢
      omega
    · simp
    · simp [← consume]
    · rw [replaySt_append, replay]
      rfl
  · -- stack has at least two values
    by_cases hcoinnum : (if st.length < 2 then true
        else if nums.isEmpty then false else coin) = true
    · -- Number branch chosen by the coin: numbers are non-empty
      have hne : ¬ nums.isEmpty := by
        intro hemp
        rw [if_neg h2, if_pos hemp] at hcoinnum
        cases hcoinnum
      rcases nums with _ | ⟨n, rest⟩
      · exact absurd rfl hne
      have hstep : genStep coin ops ⟨seq, st, n :: rest, inter, okv⟩
          = ⟨seq ++ [Token.num n], n :: st, rest, inter, okv⟩ := by
        simp only [genStep]
        rw [if_pos hcoinnum]
      rw [hstep]
      refine ⟨?_, ?_, ?_, ?_, ?_, okTrue, ?_⟩
      · simp [seqLen]
        omega
      · simp
        omega
      · simp at budget ⊢
        omega
      · simp
      · simp [← consume]
      · rw [replaySt_append, replay]
        rfl
    · -- Operator branch
      have hlen2 : 2 ≤ st.length := by omega
      have hok : (tryOps ops st).2.2 = true := tryOps_add_ok ops st hops hlen2
      have hev : rpnEvaluate st (Token.op (tryOps ops st).1)
          = Except.ok (tryOps ops st).2.1 := tryOps_ok ops st hok
      obtain ⟨b, a, t, v, hst, hst'⟩ := rpnEvaluate_op_ok hev
      have hstep : genStep coin ops ⟨seq, st, nums, inter, okv⟩
          = ⟨seq ++ [Token.op (tryOps ops st).1], (tryOps ops st).2.1, nums,
             inter ++ [(tryOps ops st).2.1.headD 0], okv && (tryOps ops st).2.2⟩ := by
        simp only [genStep]
        rw [if_neg hcoinnum]
      rw [hstep]
      have hlennew : (tryOps ops st).2.1.length + 1 = st.length := by
        rw [hst', hst]
        simp
      refine ⟨?_, ?_, ?_, ?_, ?_, ?_, ?_⟩
      · simp [seqLen]
        omega
      · simp
        omega
      · simp at budget ⊢
        omega
      · simp
        rw [hst'] at hlennew ⊢
        simp
      · simp [← consume]
      · simp [okTrue, hok]
      · rw [replaySt_append, replay]
        simp [replaySt, hev]

/-- The invariant holds after `n ≤ 9` iterations, given a full operator draw
at every step. -/
theorem inv_run (numbersIn order : List Int) (coin : Nat → Bool)
    (opSamples : Nat → List Op) (hlen : order.length = 6)
    (hops : ∀ i, Op.add ∈ opSamples i) :
    ∀ n, n ≤ 9 → Inv numbersIn order n (genRun numbersIn order coin opSamples n) := by
  intro n
  induction n with
  | zero => intro _; exact inv_init numbersIn order hlen
  | succ m ih =>
    intro hm
    rw [genRun_succ]
    exact inv_step (coin m) (opSamples m) (hops m) (by omega) (ih (by omega))

theorem countNums_eq_length_numTokens (l : List Token) :
    countNums l = (numTokens l).length := by
  induction l with
  | nil => rfl
  | cons t rest ih =>
    cases t with
    | num n => simp [countNums, numTokens, List.countP_cons] at ih ⊢; omega
    | op o => simp [countNums, numTokens, List.countP_cons] at ih ⊢; omega

/-- A step never removes already-emitted tokens: the sequence only grows. -/
theorem genStep_sequence_append (coin : Bool) (ops : List Op) (s : GenState) :
    ∃ t, (genStep coin ops s).sequence = s.sequence ++ t := by
  obtain ⟨seq, st, nums, inter, okv⟩ := s
  by_cases hc : (if st.length < 2 then true
      else if nums.isEmpty then false else coin) = true
  · rcases nums with _ | ⟨n, rest⟩
    · refine ⟨[], ?_⟩
      simp only [genStep]
      rw [if_pos hc]
      simp
    · refine ⟨[Token.num n], ?_⟩
      simp only [genStep]
      rw [if_pos hc]
  · refine ⟨[Token.op (tryOps ops st).1], ?_⟩
    simp only [genStep]
    rw [if_neg hc]

theorem genRun_sequence_grows (numbersIn order : List Int) (coin : Nat → Bool)
    (opSamples : Nat → List Op) (n m : Nat) :
    ∃ t, (genRun numbersIn order coin opSamples (n + m)).sequence
      = (genRun numbersIn order coin opSamples n).sequence ++ t := by
  induction m with
  | zero => exact ⟨[], by simp⟩
  | succ k ih =>
    obtain ⟨tl, htl⟩ := ih
    rw [show n + (k + 1) = (n + k) + 1 by omega, genRun_succ]
    obtain ⟨t2, h2⟩ := genStep_sequence_append (coin (n + k)) (opSamples (n + k))
      (genRun numbersIn order coin opSamples (n + k))
    exact ⟨tl ++ t2, by rw [h2, htl, List.append_assoc]⟩

theorem generateRandomSequence_def (numbersIn order : List Int)
    (coin : Nat → Bool) (opSamples : Nat → List Op) :
    generateRandomSequence numbersIn order coin opSamples
      = ((genRun numbersIn order coin opSamples 9).sequence,
         (genRun numbersIn order coin opSamples 9).interim) := rfl

/-- CLAIM C2 (shape of a generated sequence): for six source numbers (in
particular non-negative ones) the generator emits exactly 11 tokens — 6
number tokens that are a permutation of the input multiset and 5 operator
tokens.  `order` is the shuffled consumption order (a permutation of the
input), `coin` the number/operator coin flips, `opSamples i` the operator
draw of iteration `i` (always a permutation of the four operators, as
`random.sample(operatorSet, 4)` guarantees). -/
theorem claim_C2 (numbersIn order : List Int) (coin : Nat → Bool)
    (opSamples : Nat → List Op)
    (hNN : ∀ x ∈ numbersIn, 0 ≤ x) (hlen : numbersIn.length = 6)
    (hperm : order.Perm numbersIn)
    (hops : ∀ i, (opSamples i).Perm operatorSet) :
    (generateRandomSequence numbersIn order coin opSamples).1.length = 11 ∧
    countNums (generateRandomSequence numbersIn order coin opSamples).1 = 6 ∧
    countOps (generateRandomSequence numbersIn order coin opSamples).1 = 5 ∧
    (numTokens (generateRandomSequence numbersIn order coin opSamples).1).Perm
      numbersIn := by
  have horder : order.length = 6 := hperm.length_eq.trans hlen
  have hops' : ∀ i, Op.add ∈ opSamples i := fun i =>
    (hops i).mem_iff.mpr (by decide)
  obtain ⟨seqLen, stackCount, budget, stackPos, consume, okTrue, replay⟩ :=
    inv_run numbersIn order coin opSamples horder hops' 9 (le_refl 9)
  have hnum0 : (genRun numbersIn order coin opSamples 9).numbers.length = 0 := by
    omega
  have hnumnil : (genRun numbersIn order coin opSamples 9).numbers = [] :=
    List.length_eq_zero.mp hnum0
  rw [hnumnil, List.append_nil] at consume
  have hcn : countNums (genRun numbersIn order coin opSamples 9).sequence = 6 := by
    rw [countNums_eq_length_numTokens, consume, horder]
  simp only [generateRandomSequence_def]
  refine ⟨seqLen, hcn, by omega, ?_⟩
  rw [consume]
  exact hperm

/-- Witness for C2 at numbers `[1,2,3,4,5,6]`, identity shuffle, coin always
"number", full operator draws. -/
theorem claim_C2_witness :
    (∀ x ∈ ([1, 2, 3, 4, 5, 6] : List Int), 0 ≤ x) ∧
    ((generateRandomSequence [1, 2, 3, 4, 5, 6] [1, 2, 3, 4, 5, 6]
        (fun _ => true) (fun _ => operatorSet)).1.length = 11 ∧
     countNums (generateRandomSequence [1, 2, 3, 4, 5, 6] [1, 2, 3, 4, 5, 6]
        (fun _ => true) (fun _ => operatorSet)).1 = 6 ∧
     countOps (generateRandomSequence [1, 2, 3, 4, 5, 6] [1, 2, 3, 4, 5, 6]
        (fun _ => true) (fun _ => operatorSet)).1 = 5 ∧
     (numTokens (generateRandomSequence [1, 2, 3, 4, 5, 6] [1, 2, 3, 4, 5, 6]
        (fun _ => true) (fun _ => operatorSet)).1).Perm [1, 2, 3, 4, 5, 6]) :=
  ⟨by decide,
   claim_C2 [1, 2, 3, 4, 5, 6] [1, 2, 3, 4, 5, 6] (fun _ => true)
     (fun _ => operatorSet) (by decide) rfl (List.Perm.refl _)
     (fun _ => List.Perm.refl _)⟩

/-- CLAIM C3 (no exhausted operator choices): at every operator step of a
generation run some operator is legal (`add` always applies to the two
non-negative stack values, and in fact to any two values, since Python's
`+` never raises), so the `ok` instrumentation flag — which records that the
`except ValueError: continue` retry loop always reached a `break` — stays
true: `generateRandomSequence` never lets `IllegalOperation` (ValueError)
escape to its caller. -/
theorem claim_C3 (numbersIn order : List Int) (coin : Nat → Bool)
    (opSamples : Nat → List Op)
    (hNN : ∀ x ∈ numbersIn, 0 ≤ x) (hlen : numbersIn.length = 6)
    (hperm : order.Perm numbersIn)
    (hops : ∀ i, (opSamples i).Perm operatorSet) :
    (genRun numbersIn order coin opSamples 9).ok = true := by
  have horder : order.length = 6 := hperm.length_eq.trans hlen
  have hops' : ∀ i, Op.add ∈ opSamples i := fun i =>
    (hops i).mem_iff.mpr (by decide)
  exact (inv_run numbersIn order coin opSamples horder hops' 9 (le_refl 9)).okTrue

/-- Witness for C3. -/
theorem claim_C3_witness :
    (∀ x ∈ ([1, 2, 3, 4, 5, 6] : List Int), 0 ≤ x) ∧
    (genRun [1, 2, 3, 4, 5, 6] [1, 2, 3, 4, 5, 6] (fun _ => true)
      (fun _ => operatorSet) 9).ok = true :=
  ⟨by decide,
   claim_C3 [1, 2, 3, 4, 5, 6] [1, 2, 3, 4, 5, 6] (fun _ => true)
     (fun _ => operatorSet) (by decide) rfl (List.Perm.refl _)
     (fun _ => List.Perm.refl _)⟩

/-- CLAIM C5, as stated, is false: the operand excess of a generated
sequence can already equal 1 at a proper prefix.  With numbers
`[1,1,1,1,1,1]` and a coin that prefers operators, the generator emits
`[1, 1, +, ...]`, whose length-3 prefix has 2 number tokens and 1 operator
token — excess exactly 1 — while the full sequence has 11 tokens. -/
theorem claim_C5_counterexample :
    excess (((generateRandomSequence [1, 1, 1, 1, 1, 1] [1, 1, 1, 1, 1, 1]
        (fun _ => false) (fun _ => operatorSet)).1).take 3) = 1 ∧
    (((generateRandomSequence [1, 1, 1, 1, 1, 1] [1, 1, 1, 1, 1, 1]
        (fun _ => false) (fun _ => operatorSet)).1).take 3).length = 3 ∧
    ((generateRandomSequence [1, 1, 1, 1, 1, 1] [1, 1, 1, 1, 1, 1]
        (fun _ => false) (fun _ => operatorSet)).1).length = 11 := by
  decide

/-- CLAIM C5, amended: at every non-empty prefix of a generated sequence the
number of operand tokens exceeds the number of operator tokens by at least 1,
and the excess of the full 11-token sequence is exactly 1 (the excess may,
however, also drop to 1 at intermediate prefixes, contrary to the claim's
"only at the very end"). -/
theorem claim_C5_amended (numbersIn order : List Int) (coin : Nat → Bool)
    (opSamples : Nat → List Op)
    (hNN : ∀ x ∈ numbersIn, 0 ≤ x) (hlen : numbersIn.length = 6)
    (hperm : order.Perm numbersIn)
    (hops : ∀ i, (opSamples i).Perm operatorSet) :
    (∀ k, 1 ≤ k → k ≤ 11 →
      1 ≤ excess ((generateRandomSequence numbersIn order coin opSamples).1.take k)) ∧
    excess (generateRandomSequence numbersIn order coin opSamples).1 = 1 := by
  have horder : order.length = 6 := hperm.length_eq.trans hlen
  have hops' : ∀ i, Op.add ∈ opSamples i := fun i =>
    (hops i).mem_iff.mpr (by decide)
  have hinv := inv_run numbersIn order coin opSamples horder hops'
  -- a length-(2+n) prefix of the final sequence is the sequence after n steps
  have hpre : ∀ n, n ≤ 9 →
      (genRun numbersIn order coin opSamples 9).sequence.take (2 + n)
        = (genRun numbersIn order coin opSamples n).sequence := by
    intro n hn
    obtain ⟨t, ht⟩ := genRun_sequence_grows numbersIn order coin opSamples n (9 - n)
    rw [show n + (9 - n) = 9 by omega] at ht
    rw [ht]
    exact List.take_left' (hinv n hn).seqLen
  -- excess of the sequence after n steps = stack length ≥ 1
  have hexc : ∀ n, n ≤ 9 →
      excess (genRun numbersIn order coin opSamples n).sequence
        = ((genRun numbersIn order coin opSamples n).stack.length : Int) := by
    intro n hn
    have h1 := (hinv n hn).stackCount
    unfold excess
    omega
  simp only [generateRandomSequence_def]
  constructor
  · intro k hk1 hk11
    rcases Nat.lt_or_ge k 2 with hk | hk
    · -- k = 1: the prefix is the first number token alone
      have hk1' : k = 1 := by omega
      subst hk1'
      have h2 : (genRun numbersIn order coin opSamples 9).sequence.take 2
          = (genRun numbersIn order coin opSamples 0).sequence := hpre 0 (by omega)
      have ht : (genRun numbersIn order coin opSamples 9).sequence.take 1
          = ((genRun numbersIn order coin opSamples 9).sequence.take 2).take 1 := by
        rw [List.take_take]
        norm_num
      rw [ht, h2]
      rcases order with _ | ⟨n1, _ | ⟨n2, rest⟩⟩
      · simp at horder
      · simp at horder
      · rw [show (genRun numbersIn (n1 :: n2 :: rest) coin opSamples 0).sequence
            = [Token.num n1, Token.num n2] from rfl]
        simp [excess]
    · have hk2 : k = 2 + (k - 2) := by omega
      rw [hk2, hpre (k - 2) (by omega), hexc (k - 2) (by omega)]
      have := (hinv (k - 2) (by omega)).stackPos
      omega
  · have h9 : (genRun numbersIn order coin opSamples 9).sequence
        = (genRun numbersIn order coin opSamples 9).sequence.take (2 + 9) := by
      rw [List.take_of_length_le]
      rw [(hinv 9 (by omega)).seqLen]
    rw [h9, hpre 9 (by omega), hexc 9 (by omega)]
    have hb := (hinv 9 (by omega)).budget
    have hp := (hinv 9 (by omega)).stackPos
    omega

/-- Witness for the amended C5. -/
theorem claim_C5_witness :
    (∀ x ∈ ([1, 2, 3, 4, 5, 6] : List Int), 0 ≤ x) ∧
    ((∀ k, 1 ≤ k → k ≤ 11 →
      1 ≤ excess ((generateRandomSequence [1, 2, 3, 4, 5, 6] [1, 2, 3, 4, 5, 6]
        (fun _ => true) (fun _ => operatorSet)).1.take k)) ∧
     excess (generateRandomSequence [1, 2, 3, 4, 5, 6] [1, 2, 3, 4, 5, 6]
        (fun _ => true) (fun _ => operatorSet)).1 = 1) :=
  ⟨by decide,
   claim_C5_amended [1, 2, 3, 4, 5, 6] [1, 2, 3, 4, 5, 6] (fun _ => true)
     (fun _ => operatorSet) (by decide) rfl (List.Perm.refl _)
     (fun _ => List.Perm.refl _)⟩

/-- CLAIM C6 (round trip): replaying a generated sequence left to right
through the evaluator succeeds and reproduces exactly the interim-results
list the generator returned (the six source numbers in input order followed
by every post-operator stack top, in order). -/
theorem claim_C6 (numbersIn order : List Int) (coin : Nat → Bool)
    (opSamples : Nat → List Op)
    (hNN : ∀ x ∈ numbersIn, 0 ≤ x) (hlen : numbersIn.length = 6)
    (hperm : order.Perm numbersIn)
    (hops : ∀ i, (opSamples i).Perm operatorSet) :
    ∃ finalStack,
      replaySt (generateRandomSequence numbersIn order coin opSamples).1
          ([], numbersIn)
        = some (finalStack, (generateRandomSequence numbersIn order coin opSamples).2) := by
  have horder : order.length = 6 := hperm.length_eq.trans hlen
  have hops' : ∀ i, Op.add ∈ opSamples i := fun i =>
    (hops i).mem_iff.mpr (by decide)
  simp only [generateRandomSequence_def]
  exact ⟨(genRun numbersIn order coin opSamples 9).stack,
    (inv_run numbersIn order coin opSamples horder hops' 9 (le_refl 9)).replay⟩

/-- Witness for C6. -/
theorem claim_C6_witness :
    (∀ x ∈ ([1, 2, 3, 4, 5, 6] : List Int), 0 ≤ x) ∧
    (∃ finalStack,
      replaySt (generateRandomSequence [1, 2, 3, 4, 5, 6] [1, 2, 3, 4, 5, 6]
          (fun _ => true) (fun _ => operatorSet)).1 ([], [1, 2, 3, 4, 5, 6])
        = some (finalStack,
            (generateRandomSequence [1, 2, 3, 4, 5, 6] [1, 2, 3, 4, 5, 6]
              (fun _ => true) (fun _ => operatorSet)).2)) :=
  ⟨by decide,
   claim_C6 [1, 2, 3, 4, 5, 6] [1, 2, 3, 4, 5, 6] (fun _ => true)
     (fun _ => operatorSet) (by decide) rfl (List.Perm.refl _)
     (fun _ => List.Perm.refl _)⟩

/-- CLAIM C8: `formatSolution([5, 5, +], 10)` (with the default
simplification on) returns the string `"(5 + 5) = 10"` and a numbers-used
count of 2. -/
theorem claim_C8 :
    formatSolution [Token.num 5, Token.num 5, Token.op Op.add] 10 true
      = some ("(5 + 5) = 10", 2) := by
  decide

/-- CLAIM C10: whenever `formatSolution` completes, the returned string ends
in `" = <target>"` with the target passed by the caller — the right-hand
side of the rendered equation is never checked against the expression's
actual value. -/
theorem claim_C10 (sequence : List Token) (target : Int) (ignore : Bool)
    (out : String) (n : Nat)
    (h : formatSolution sequence target ignore = some (out, n)) :
    ∃ e, out = e ++ " = " ++ toString target := by
  unfold formatSolution at h
  cases hfl : formatLoop target ignore sequence [] [] with
  | none =>
    rw [hfl] at h
    cases h
  | some r =>
    obtain ⟨calcStk, outStk, b⟩ := r
    rw [hfl] at h
    cases outStk with
    | nil => cases h
    | cons top restS =>
      simp only [Option.some.injEq, Prod.mk.injEq] at h
      exact ⟨top, h.1.symm⟩

/-- Witness for C10: `formatSolution([2, 3, +], 7)` completes and reports
`"(2 + 3) = 7"` although the rendered expression evaluates to 5, not 7. -/
theorem claim_C10_witness :
    formatSolution [Token.num 2, Token.num 3, Token.op Op.add] 7 true
      = some ("(2 + 3) = 7", 2) ∧
    (∃ e, "(2 + 3) = 7" = e ++ " = " ++ toString (7 : Int)) :=
  ⟨by decide,
   claim_C10 [Token.num 2, Token.num 3, Token.op Op.add] 7 true
     "(2 + 3) = 7" 2 (by decide)⟩

/-- CLAIM C1 (evaluator failure conditions): for non-negative `a` (second from
top) and `b` (top), `add` and `multiply` never fail, `subtract` fails iff
`a < b`, and `divide` fails iff `b = 0` or `a % b ≠ 0`. -/
theorem claim_C1 (a b : Int) (rest : List Int) (ha : 0 ≤ a) (hb : 0 ≤ b) :
    (∃ s, rpnEvaluate (b :: a :: rest) (Token.op Op.add) = Except.ok s) ∧
    (∃ s, rpnEvaluate (b :: a :: rest) (Token.op Op.mul) = Except.ok s) ∧
    ((∀ s, rpnEvaluate (b :: a :: rest) (Token.op Op.sub) ≠ Except.ok s) ↔ a < b) ∧
    ((∀ s, rpnEvaluate (b :: a :: rest) (Token.op Op.div) ≠ Except.ok s) ↔
      (b = 0 ∨ a % b ≠ 0)) := by
  refine ⟨⟨(a + b) :: rest, rfl⟩, ⟨(a * b) :: rest, rfl⟩, ?_, ?_⟩
  · rw [show rpnEvaluate (b :: a :: rest) (Token.op Op.sub)
        = if a - b < 0 then Except.error (b :: a :: rest)
          else Except.ok ((a - b) :: rest) from rfl]
    constructor
    · intro h
      by_contra hab
      exact h ((a - b) :: rest) (by rw [if_neg (by omega)])
    · intro hab s
      rw [if_pos (by omega)]
      simp
  · rw [show rpnEvaluate (b :: a :: rest) (Token.op Op.div)
        = if b = 0 then Except.error (b :: a :: rest)
          else if Int.fmod a b ≠ 0 then Except.error (b :: a :: rest)
          else Except.ok ((Int.fdiv a b) :: rest) from rfl]
    constructor
    · intro h
      by_contra hcon
      push_neg at hcon
      obtain ⟨hb0, hmod⟩ := hcon
      refine h (Int.fdiv a b :: rest) ?_
      rw [if_neg hb0, if_neg (by rw [Int.fmod_eq_emod a hb]; simp [hmod])]
    · rintro (hb0 | hmod) s
      · rw [if_pos hb0]
        simp
      · by_cases hb0 : b = 0
        · rw [if_pos hb0]
          simp
        · rw [if_neg hb0, if_pos (by rw [Int.fmod_eq_emod a hb]; exact hmod)]
          simp

/-- Witness for C1 at `a = 6`, `b = 4`. -/
theorem claim_C1_witness :
    (0 : Int) ≤ 6 ∧ (0 : Int) ≤ 4 ∧
    ((∃ s, rpnEvaluate [4, 6] (Token.op Op.add) = Except.ok s) ∧
     (∃ s, rpnEvaluate [4, 6] (Token.op Op.mul) = Except.ok s) ∧
     ((∀ s, rpnEvaluate [4, 6] (Token.op Op.sub) ≠ Except.ok s) ↔ (6 : Int) < 4) ∧
     ((∀ s, rpnEvaluate [4, 6] (Token.op Op.div) ≠ Except.ok s) ↔
       ((4 : Int) = 0 ∨ (6 : Int) % 4 ≠ 0))) :=
  ⟨by decide, by decide, claim_C1 6 4 [] (by decide) (by decide)⟩

/-- CLAIM C4 (failure leaves the stack untouched): whenever `rpnEvaluate`
raises, the stack at the moment of the raise is exactly the input stack — no
element was popped or overwritten, so a caller can retry another operator. -/
theorem claim_C4 (stack : List Int) (element : Token) (s : List Int)
    (h : rpnEvaluate stack element = Except.error s) : s = stack := by
  cases element with
  | num n => exact absurd h (by simp [rpnEvaluate])
  | op o =>
    cases stack with
    | nil =>
      have h' : (Except.error ([] : List Int) : Except (List Int) (List Int))
          = Except.error s := h
      injection h' with h''
      exact h''.symm
    | cons b t =>
      cases t with
      | nil =>
        have h' : (Except.error [b] : Except (List Int) (List Int)) = Except.error s := h
        injection h' with h''
        exact h''.symm
      | cons a rest =>
        cases o with
        | add => exact absurd h (by simp [rpnEvaluate])
        | mul => exact absurd h (by simp [rpnEvaluate])
        | sub =>
          rw [show rpnEvaluate (b :: a :: rest) (Token.op Op.sub)
              = if a - b < 0 then Except.error (b :: a :: rest)
                else Except.ok ((a - b) :: rest) from rfl] at h
          split_ifs at h
          injection h with h'
          exact h'.symm
        | div =>
          rw [show rpnEvaluate (b :: a :: rest) (Token.op Op.div)
              = if b = 0 then Except.error (b :: a :: rest)
                else if Int.fmod a b ≠ 0 then Except.error (b :: a :: rest)
                else Except.ok ((Int.fdiv a b) :: rest) from rfl] at h
          split_ifs at h
          · injection h with h'
            exact h'.symm
          · injection h with h'
            exact h'.symm

/-- Witness for C4: division by zero on stack `[10, 0]` (Python order), i.e.
head-is-top `[0, 10]`, errors with the stack unchanged. -/
theorem claim_C4_witness :
    rpnEvaluate [0, 10] (Token.op Op.div) = Except.error [0, 10] ∧
    ([0, 10] : List Int) = [0, 10] :=
  ⟨rfl, claim_C4 [0, 10] (Token.op Op.div) [0, 10] rfl⟩

theorem runClosest_eq_bestFrom (target : Int) :
    ∀ (l : List (Int × List Token)) (p : Int × List Token),
      runClosest target (some p) l = some (bestFrom target p l) := by
  intro l
  induction l with
  | nil => intro p; rfl
  | cons q rest ih =>
    intro p
    obtain ⟨pv, ps⟩ := p
    obtain ⟨qv, qs⟩ := q
    show runClosest target (updateClosest target (some (pv, ps)) qv qs) rest
        = some (bestFrom target (pv, ps) ((qv, qs) :: rest))
    rw [show updateClosest target (some (pv, ps)) qv qs
        = if |target - qv| < |target - pv| then some (qv, qs) else some (pv, ps) from rfl]
    rw [show bestFrom target (pv, ps) ((qv, qs) :: rest)
        = if |target - qv| < |target - pv| then bestFrom target (qv, qs) rest
          else bestFrom target (pv, ps) rest from rfl]
    split_ifs with hlt
    · exact ih (qv, qs)
    · exact ih (pv, ps)

theorem bestFrom_spec (target : Int) :
    ∀ (l : List (Int × List Token)) (p : Int × List Token),
      (∀ q ∈ p :: l, |target - (bestFrom target p l).1| ≤ |target - q.1|) ∧
      ∃ t1 t2, p :: l = t1 ++ (bestFrom target p l) :: t2 ∧
        ∀ q ∈ t1, |target - (bestFrom target p l).1| < |target - q.1| := by
  intro l
  induction l with
  | nil =>
    intro p
    refine ⟨?_, [], [], rfl, by simp⟩
    intro q hq
    rw [List.mem_singleton] at hq
    subst hq
    exact le_refl _
  | cons q rest ih =>
    intro p
    rw [show bestFrom target p (q :: rest)
        = if |target - q.1| < |target - p.1| then bestFrom target q rest
          else bestFrom target p rest from rfl]
    split_ifs with hlt
    · obtain ⟨hmin, t1, t2, hsplit, ht1⟩ := ih q
      have hbq : |target - (bestFrom target q rest).1| ≤ |target - q.1| :=
        hmin q (List.mem_cons_self q rest)
      refine ⟨?_, p :: t1, t2, by rw [List.cons_append, ← hsplit], ?_⟩
      · intro x hx
        rcases List.mem_cons.mp hx with hx | hx
        · subst hx
          exact le_trans hbq (le_of_lt hlt)
        · exact hmin x hx
      · intro x hx
        rcases List.mem_cons.mp hx with hx | hx
        · subst hx
          exact lt_of_le_of_lt hbq hlt
        · exact ht1 x hx
    · obtain ⟨hmin, t1, t2, hsplit, ht1⟩ := ih p
      have hple : |target - (bestFrom target p rest).1| ≤ |target - p.1| :=
        hmin p (List.mem_cons_self p rest)
      have hqge : |target - p.1| ≤ |target - q.1| := le_of_not_lt hlt
      refine ⟨?_, ?_⟩
      · intro x hx
        rcases List.mem_cons.mp hx with hx | hx
        · rw [hx]
          exact hmin p (List.mem_cons_self p rest)
        · rcases List.mem_cons.mp hx with hx | hx
          · rw [hx]
            exact le_trans hple hqge
          · exact hmin x (List.mem_cons_of_mem p hx)
      · cases t1 with
        | nil =>
          have hbp : bestFrom target p rest = p := by
            rw [List.nil_append] at hsplit
            exact ((List.cons.injEq _ _ _ _).mp hsplit).1.symm
          refine ⟨[], q :: rest, ?_, by simp⟩
          rw [hbp]
          simp
        | cons x t1' =>
          rw [List.cons_append] at hsplit
          have hpx : p = x := ((List.cons.injEq _ _ _ _).mp hsplit).1
          have hrest : rest = t1' ++ (bestFrom target p rest) :: t2 :=
            ((List.cons.injEq _ _ _ _).mp hsplit).2
          have hbp_lt : |target - (bestFrom target p rest).1| < |target - p.1| := by
            nth_rewrite 2 [hpx]
            exact ht1 x (List.mem_cons_self x t1')
          refine ⟨p :: q :: t1', t2, ?_, ?_⟩
          · rw [List.cons_append, List.cons_append, ← hrest]
          · intro y hy
            rcases List.mem_cons.mp hy with hy | hy
            · subst hy
              exact hbp_lt
            · rcases List.mem_cons.mp hy with hy | hy
              · subst hy
                exact lt_of_lt_of_le hbp_lt hqge
              · exact ht1 y (List.mem_cons_of_mem x hy)

/-- CLAIM C9 (Best-So-Far invariant): processing any non-empty stream of
(interim result, sequence) pairs with the driver's update rule yields a
candidate that occurs in the stream, has minimum absolute distance to the
target among everything seen, and is the earliest element attaining that
distance (every strictly earlier element is strictly farther). -/
theorem claim_C9 (target : Int) (l : List (Int × List Token)) (hne : l ≠ []) :
    ∃ p, runClosest target none l = some p ∧
      (∀ q ∈ l, |target - p.1| ≤ |target - q.1|) ∧
      ∃ t1 t2, l = t1 ++ p :: t2 ∧ ∀ q ∈ t1, |target - p.1| < |target - q.1| := by
  cases l with
  | nil => exact absurd rfl hne
  | cons h0 t =>
    refine ⟨bestFrom target h0 t, ?_, ?_⟩
    · show runClosest target (updateClosest target none h0.1 h0.2) t = _
      rw [show updateClosest target none h0.1 h0.2 = some h0 from rfl]
      exact runClosest_eq_bestFrom target t h0
    · obtain ⟨hmin, t1, t2, hsplit, ht1⟩ := bestFrom_spec target t h0
      exact ⟨hmin, t1, t2, hsplit, ht1⟩

/-- Witness for C9: stream `[(5, []), (3, [])]`, target 4 — both elements at
distance 1, the earlier one (value 5) is kept. -/
theorem claim_C9_witness :
    ([(5, []), (3, [])] : List (Int × List Token)) ≠ [] ∧
    (∃ p, runClosest 4 none [(5, []), (3, [])] = some p ∧
      (∀ q ∈ ([(5, []), (3, [])] : List (Int × List Token)),
        |4 - p.1| ≤ |4 - q.1|) ∧
      ∃ t1 t2, ([(5, []), (3, [])] : List (Int × List Token)) = t1 ++ p :: t2 ∧
        ∀ q ∈ t1, |4 - p.1| < |4 - q.1|) :=
  ⟨by decide, claim_C9 4 [(5, []), (3, [])] (by decide)⟩

theorem skipToken_false_ig (c : List Int) (el : Token) :
    skipToken false c el = false := by
  simp [skipToken]

theorem skipToken_num (ig : Bool) (c : List Int) (n : Int) :
    skipToken ig c (Token.num n) = false := by
  simp [skipToken]

theorem skipToken_true_elim (ig : Bool) (c : List Int) (el : Token)
    (h : skipToken ig c el = true) :
    ig = true ∧ (∃ ct, c = 1 :: ct) ∧
      (el = Token.op Op.mul ∨ el = Token.op Op.div) := by
  cases el with
  | num n => rw [skipToken_num] at h; cases h
  | op o =>
    cases o with
    | add => simp [skipToken] at h
    | sub => simp [skipToken] at h
    | mul =>
      simp only [skipToken, Bool.and_eq_true, Bool.not_eq_true'] at h
      obtain ⟨⟨⟨hig, hne⟩, h1⟩, -⟩ := h
      rcases c with _ | ⟨c0, ct⟩
      · simp at hne
      · simp at h1
        subst h1
        exact ⟨hig, ⟨ct, rfl⟩, Or.inl rfl⟩
    | div =>
      simp only [skipToken, Bool.and_eq_true, Bool.not_eq_true'] at h
      obtain ⟨⟨⟨hig, hne⟩, h1⟩, -⟩ := h
      rcases c with _ | ⟨c0, ct⟩
      · simp at hne
      · simp at h1
        subst h1
        exact ⟨hig, ⟨ct, rfl⟩, Or.inr rfl⟩

theorem formatLoop_cons_skip (target : Int) (ig : Bool) (el : Token)
    (rest : List Token) (c0 : Int) (ct : List Int) (s0 : String)
    (o2 : List String) (hsk : skipToken ig (c0 :: ct) el = true) :
    formatLoop target ig (el :: rest) (c0 :: ct) (s0 :: o2)
      = formatLoop target ig rest ct o2 := by
  simp only [formatLoop]
  rw [if_pos hsk]

theorem formatLoop_cons_num (target : Int) (ig : Bool) (n : Int)
    (rest : List Token) (c : List Int) (out : List String)
    (hsk : skipToken ig c (Token.num n) = false) :
    formatLoop target ig (Token.num n :: rest) c out
      = formatLoop target ig rest (n :: c) (toString n :: out) := by
  simp only [formatLoop]
  rw [if_neg (by simp [hsk])]
  rfl

theorem formatLoop_cons_op (target : Int) (ig : Bool) (o : Op)
    (rest : List Token) (c calcT : List Int) (r l : String)
    (outRest : List String)
    (hsk : skipToken ig c (Token.op o) = false)
    (hev : rpnEvaluate c (Token.op o) = Except.ok calcT) :
    formatLoop target ig (Token.op o :: rest) c (r :: l :: outRest)
      = if calcT.headD 0 = target
        then some (calcT, combineStrs o l r :: outRest, true)
        else formatLoop target ig rest calcT (combineStrs o l r :: outRest) := by
  simp only [formatLoop]
  rw [if_neg (by simp [hsk]), hev]

theorem formatLoop_cons_op_err (target : Int) (ig : Bool) (o : Op)
    (rest : List Token) (c : List Int) (out : List String) (e : List Int)
    (hsk : skipToken ig c (Token.op o) = false)
    (hev : rpnEvaluate c (Token.op o) = Except.error e) :
    formatLoop target ig (Token.op o :: rest) c out = none := by
  simp only [formatLoop]
  rw [if_neg (by simp [hsk]), hev]

theorem rpnEvaluate_muldiv_one (a : Int) (ct : List Int) (o : Op)
    (ho : o = Op.mul ∨ o = Op.div) :
    rpnEvaluate (1 :: a :: ct) (Token.op o) = Except.ok (a :: ct) := by
  rcases ho with rfl | rfl
  · show Except.ok ((a * 1) :: ct) = _
    rw [mul_one]
  · show (if (1 : Int) = 0 then Except.error (1 :: a :: ct)
      else if Int.fmod a 1 ≠ 0 then Except.error (1 :: a :: ct)
      else Except.ok ((Int.fdiv a 1) :: ct)) = _
    rw [if_neg (by norm_num), if_neg (by simp [Int.fmod_one]), Int.fdiv_one]

/-- Key agreement lemma for C7: if the unsimplified (`ignoreMultiplyByOne =
false`) loop runs to completion without the early-termination break, the
simplified loop also completes without a break and with the *same* numeric
stack — the skipped multiply/divide-by-one tokens are exactly no-ops on the
numeric side.  The string stacks may differ (`out1`/`out2` arbitrary but in
lockstep with the numeric stack). -/
theorem formatLoop_value_agree (target : Int) :
    ∀ (seq : List Token) (c : List Int) (out1 out2 : List String),
      out1.length = c.length → out2.length = c.length →
      ∀ cF oF, formatLoop target false seq c out1 = some (cF, oF, false) →
      ∃ oT, formatLoop target true seq c out2 = some (cF, oT, false) := by
  intro seq
  induction seq with
  | nil =>
    intro c out1 out2 h1 h2 cF oF h
    simp only [formatLoop, Option.some.injEq, Prod.mk.injEq] at h
    obtain ⟨hcf, -⟩ := h
    subst hcf
    exact ⟨out2, rfl⟩
  | cons el rest ih =>
    intro c out1 out2 h1 h2 cF oF h
    cases el with
    | num n =>
      rw [formatLoop_cons_num target false n rest c out1
        (skipToken_false_ig c (Token.num n))] at h
      rw [formatLoop_cons_num target true n rest c out2 (skipToken_num true c n)]
      exact ih (n :: c) (toString n :: out1) (toString n :: out2)
        (by simp [h1]) (by simp [h2]) cF oF h
    | op o =>
      have hskF : skipToken false c (Token.op o) = false := skipToken_false_ig c _
      cases hev : rpnEvaluate c (Token.op o) with
      | error e =>
        rw [formatLoop_cons_op_err target false o rest c out1 e hskF hev] at h
        cases h
      | ok calcT =>
        obtain ⟨b, a, ct, v, hc, hcT⟩ := rpnEvaluate_op_ok hev
        subst hc
        subst hcT
        rcases out1 with _ | ⟨r1, _ | ⟨l1, o1⟩⟩
        · simp at h1
        · simp at h1
        rcases out2 with _ | ⟨r2, _ | ⟨l2, o2⟩⟩
        · simp at h2
        · simp at h2
        simp only [List.length_cons] at h1 h2
        rw [formatLoop_cons_op target false o rest _ _ r1 l1 o1 hskF hev] at h
        by_cases hT : (v :: ct).headD 0 = target
        · rw [if_pos hT] at h
          simp at h
        · rw [if_neg hT] at h
          by_cases hsk : skipToken true (b :: a :: ct) (Token.op o) = true
          · obtain ⟨-, ⟨ct', hcts⟩, ho⟩ := skipToken_true_elim _ _ _ hsk
            have ho' : o = Op.mul ∨ o = Op.div := ho.imp Token.op.inj Token.op.inj
            have hb1 : b = 1 := ((List.cons.injEq _ _ _ _).mp hcts).1
            subst hb1
            have hev1 : rpnEvaluate (1 :: a :: ct) (Token.op o)
                = Except.ok (a :: ct) := rpnEvaluate_muldiv_one a ct o ho'
            have hva : v = a := by
              rw [hev] at hev1
              injection hev1 with hev1'
              exact ((List.cons.injEq _ _ _ _).mp hev1').1
            rw [hva] at h
            rw [formatLoop_cons_skip target true (Token.op o) rest 1 (a :: ct)
              r2 (l2 :: o2) hsk]
            exact ih (a :: ct) (combineStrs o l1 r1 :: o1) (l2 :: o2)
              (by simp; omega) (by simp; omega) cF oF h
          · have hsk' : skipToken true (b :: a :: ct) (Token.op o) = false :=
              Bool.eq_false_iff.mpr hsk
            rw [formatLoop_cons_op target true o rest _ _ r2 l2 o2 hsk' hev]
            rw [if_neg hT]
            exact ih (v :: ct) (combineStrs o l1 r1 :: o1)
              (combineStrs o l2 r2 :: o2) (by simp; omega) (by simp; omega)
              cF oF h

/-- CLAIM C7, as stated, is false: simplification *can* change the final
numeric value, because the early-termination check (`calcStack[-1] ==
target`) is not performed for tokens the simplified run skips.  On the valid
11-token sequence `[5, 1, *, 2, +, 3, +, 4, +, 6, *]` with target 5, the
unsimplified run stops at `5 * 1 = 5` (value 5) while the simplified run
skips that multiply, never sees the hit, and finishes with value 84. -/
theorem claim_C7_counterexample :
    finalValue [Token.num 5, Token.num 1, Token.op Op.mul, Token.num 2,
      Token.op Op.add, Token.num 3, Token.op Op.add, Token.num 4,
      Token.op Op.add, Token.num 6, Token.op Op.mul] 5 false = some 5 ∧
    finalValue [Token.num 5, Token.num 1, Token.op Op.mul, Token.num 2,
      Token.op Op.add, Token.num 3, Token.op Op.add, Token.num 4,
      Token.op Op.add, Token.num 6, Token.op Op.mul] 5 true = some 84 ∧
    finalValue [Token.num 5, Token.num 1, Token.op Op.mul, Token.num 2,
      Token.op Op.add, Token.num 3, Token.op Op.add, Token.num 4,
      Token.op Op.add, Token.num 6, Token.op Op.mul] 5 false ≠
    finalValue [Token.num 5, Token.num 1, Token.op Op.mul, Token.num 2,
      Token.op Op.add, Token.num 3, Token.op Op.add, Token.num 4,
      Token.op Op.add, Token.num 6, Token.op Op.mul] 5 true := by
  decide

/-- CLAIM C7, amended: if the `simplifyByOne=false` run processes the whole
sequence without the early-termination break firing, then the
`simplifyByOne=true` run also completes without a break, with the *same*
final numeric stack — so the two modes produce the same final numeric value
and can only differ in surface text and numbers-used count.  (The
counterexample shows the restriction is necessary: a break at a skipped
multiply/divide-by-one token makes the values diverge.) -/
theorem claim_C7_amended (sequence : List Token) (target : Int)
    (calcF : List Int) (outF : List String)
    (h : formatLoop target false sequence [] [] = some (calcF, outF, false)) :
    (∃ outT, formatLoop target true sequence [] [] = some (calcF, outT, false)) ∧
    finalValue sequence target true = finalValue sequence target false := by
  obtain ⟨oT, hT⟩ :=
    formatLoop_value_agree target sequence [] [] [] rfl rfl calcF outF h
  refine ⟨⟨oT, hT⟩, ?_⟩
  unfold finalValue
  rw [h, hT]
  rfl

/-- Witness for the amended C7 at `[2, 3, +]`, target 7 (no early stop). -/
theorem claim_C7_witness :
    formatLoop 7 false [Token.num 2, Token.num 3, Token.op Op.add] [] []
      = some ([5], ["(2 + 3)"], false) ∧
    ((∃ outT, formatLoop 7 true [Token.num 2, Token.num 3, Token.op Op.add] [] []
        = some ([5], outT, false)) ∧
     finalValue [Token.num 2, Token.num 3, Token.op Op.add] 7 true
       = finalValue [Token.num 2, Token.num 3, Token.op Op.add] 7 false) :=
  ⟨by decide,
   claim_C7_amended [Token.num 2, Token.num 3, Token.op Op.add] 7 [5]
     ["(2 + 3)"] (by decide)⟩

end Countdown
